import Mathlib

/-!
Shallow embedding of the background job queue of `src/jobs.rs`
(`PostgresQueue`: `push`, `pull`, `delete_job`, `fail_job`, `clear`, and the
worker poll loop `run_worker`).

The Postgres `queue` table is modelled as a list of rows (`QueueState`).
Timestamps (`chrono::DateTime<Utc>`) are modelled as `Int` instants; the
128-bit ULID/UUID job ids as `Nat`.  Each SQL statement of the source becomes
a pure state transformer; the wall clock reads (`chrono::Utc::now()`) and the
fresh ULID of `push` become explicit parameters.  Store-level concurrency
(`FOR UPDATE SKIP LOCKED`) is modelled by an explicit lock set threaded
through `pullLocked`.
-/

namespace JobsRs

/-- The tagged job payload, `enum Message` in `src/jobs.rs`. -/
inductive Message where
  | SendResetPasswordEmail (email : String)
  | SendPasswordWasResetEmail (email : String)
  | SendAccountOddRegisterAttemptEmail (email : String)
  | SendVerifyAccountEmail (uid : Int)
  | SendWelcomeAccountEmail (uid : Int)
deriving DecidableEq

/-- `enum PostgresJobStatus`, stored as an INT in Postgres. -/
inductive PostgresJobStatus where
  | Queued
  | Running
  | Failed
deriving DecidableEq

/-- A persisted row of the `queue` table, `struct PostgresJob`. -/
structure PostgresJob where
  id : Nat
  created_at : Int
  updated_at : Int
  scheduled_for : Int
  failed_attempts : Int
  status : PostgresJobStatus
  message : Message
deriving DecidableEq

/-- The public job representation `struct Job`: only `id` and `message`. -/
structure Job where
  id : Nat
  message : Message
deriving DecidableEq

/-- `impl From<PostgresJob> for Job`: drops every field except `id` and
`message`. -/
def Job.ofPostgres (item : PostgresJob) : Job :=
  { id := item.id, message := item.message }

/-- The state of the `queue` table: its rows. -/
abbrev QueueState := List PostgresJob

/-- The ids of the rows of a state. -/
def idsOf (st : QueueState) : List Nat :=
  st.map (fun j => j.id)

/-- The rows of a state carrying a given id. -/
def rowsWithId (st : QueueState) (i : Nat) : List PostgresJob :=
  st.filter (fun j => j.id == i)

/-- The row the INSERT of `PostgresQueue::push` writes: the freshly generated
ULID `job_id`, `status = Queued`, `failed_attempts = 0`,
`scheduled_for = date.unwrap_or(now)`, `created_at = updated_at = now`. -/
def pushedRow (job : Message) (date : Option Int) (now : Int) (job_id : Nat) :
    PostgresJob :=
  let scheduled_for := date.getD now
  let failed_attempts : Int := 0
  let status := PostgresJobStatus.Queued
  { id := job_id, created_at := now, updated_at := now,
    scheduled_for := scheduled_for, failed_attempts := failed_attempts,
    status := status, message := job }

/-- `PostgresQueue::push`: appends the inserted row to the table.  The Rust
function returns `Ok(())`: the `Unit` second component is the value the
caller receives on success. -/
def push (st : QueueState) (job : Message) (date : Option Int) (now : Int)
    (job_id : Nat) : QueueState × Unit :=
  (st ++ [pushedRow job date now job_id], ())

/-- The SQL selection predicate of `PostgresQueue::pull`:
`status = Queued AND scheduled_for <= now AND failed_attempts < max_attempts`. -/
def eligible (max_attempts : Int) (now : Int) (j : PostgresJob) : Bool :=
  j.status == PostgresJobStatus.Queued
    && decide (j.scheduled_for ≤ now)
    && decide (j.failed_attempts < max_attempts)

/-- The `ORDER BY scheduled_for` comparison. -/
def schedLe (a b : PostgresJob) : Prop :=
  a.scheduled_for ≤ b.scheduled_for

instance : DecidableRel schedLe :=
  fun a b => inferInstanceAs (Decidable (a.scheduled_for ≤ b.scheduled_for))

instance : IsTotal PostgresJob schedLe :=
  ⟨fun a b => Int.le_total a.scheduled_for b.scheduled_for⟩

instance : IsTrans PostgresJob schedLe :=
  ⟨fun _ _ _ h h' => le_trans h h'⟩

/-- The inner `SELECT id ... ORDER BY scheduled_for ... LIMIT n` of `pull`:
the rows picked for the batch. -/
def selectedRows (st : QueueState) (max_attempts : Int) (number_of_jobs : Nat)
    (now : Int) : List PostgresJob :=
  (List.insertionSort schedLe (st.filter (eligible max_attempts now))).take
    number_of_jobs

/-- The `SET status = Running, updated_at = now` applied to each picked row. -/
def markRunning (now : Int) (j : PostgresJob) : PostgresJob :=
  { j with status := PostgresJobStatus.Running, updated_at := now }

/-- `PostgresQueue::pull`: atomically selects at most `number_of_jobs`
eligible rows ordered by `scheduled_for`, transitions them to `Running`
with `updated_at = now`, and returns them (`RETURNING *`) mapped to the
public `Job` representation. -/
def pull (st : QueueState) (max_attempts : Int) (number_of_jobs : Nat)
    (now : Int) : QueueState × List Job :=
  let sel := selectedRows st max_attempts number_of_jobs now
  let ids := sel.map (fun j => j.id)
  (st.map (fun j => if ids.contains j.id then markRunning now j else j),
   (sel.map (markRunning now)).map Job.ofPostgres)

/-- `PostgresQueue::pull` as executed by one transaction while the rows whose
ids are in `locked` are row-locked by another in-flight transaction:
`FOR UPDATE SKIP LOCKED` skips them instead of waiting.  Returns the updated
visible state, the extended lock set, and the leased jobs. -/
def pullLocked (st : QueueState) (locked : List Nat) (max_attempts : Int)
    (number_of_jobs : Nat) (now : Int) :
    QueueState × List Nat × List Job :=
  let sel := (List.insertionSort schedLe
      ((st.filter (eligible max_attempts now)).filter
        (fun j => !(locked.contains j.id)))).take number_of_jobs
  let ids := sel.map (fun j => j.id)
  (st.map (fun j => if ids.contains j.id then markRunning now j else j),
   locked ++ ids,
   (sel.map (markRunning now)).map Job.ofPostgres)

/-- `PostgresQueue::delete_job`: `DELETE FROM queue WHERE id = $1`.
Removes every row with the id; succeeds (returns `Ok(())`) whether or not
such a row exists. -/
def delete_job (st : QueueState) (job_id : Nat) : QueueState × Unit :=
  (st.filter (fun j => j.id != job_id), ())

/-- The per-row update of `PostgresQueue::fail_job`:
`SET status = Queued, updated_at = now, failed_attempts = failed_attempts + 1`. -/
def failUpdate (now : Int) (j : PostgresJob) : PostgresJob :=
  { j with status := PostgresJobStatus.Queued, updated_at := now,
           failed_attempts := j.failed_attempts + 1 }

/-- `PostgresQueue::fail_job`: requeues the row with the given id,
stamping `updated_at` and incrementing `failed_attempts`. -/
def fail_job (st : QueueState) (job_id : Nat) (now : Int) : QueueState × Unit :=
  (st.map (fun j => if j.id == job_id then failUpdate now j else j), ())

/-- `PostgresQueue::clear`: `DELETE FROM queue` removes every row. -/
def clear (st : QueueState) : QueueState × Unit :=
  (st.filter (fun _ => false), ())

/-- Fixed queue parameter `CONCURRENCY` of `src/jobs.rs`. -/
def CONCURRENCY : Nat := 50

/-- Fixed queue parameter `QUEUE_EMPTY_DELAY` (milliseconds). -/
def QUEUE_EMPTY_DELAY : Nat := 500

/-- Fixed queue parameter `QUEUE_INTERVAL` (milliseconds). -/
def QUEUE_INTERVAL : Nat := 125

/-- One job's outcome handling inside `run_worker`'s batch: on handler success
call `delete_job`, on handler failure call `fail_job`; an error of that
delete/fail call itself (`opFails`) leaves the store unchanged and is only
logged, so processing always proceeds to the rest of the batch. -/
def processJob (handlerOk : Job → Bool) (opFails : Nat → Bool) (now : Int)
    (st : QueueState) (jb : Job) : QueueState :=
  if opFails jb.id then st
  else if handlerOk jb then (delete_job st jb.id).1
  else (fail_job st jb.id now).1

/-- The observable outcome of one pass of `run_worker`'s loop body. -/
structure IterOutcome where
  state : QueueState
  delay : Nat
deriving DecidableEq

/-- One iteration of the `run_worker` poll loop.  `pullFails` models a store
error of the `pull` call (which mutates nothing); in that case the batch is
empty and the loop sleeps `QUEUE_EMPTY_DELAY` before its end-of-iteration
`QUEUE_INTERVAL` sleep.  Otherwise the pulled jobs are dispatched and each
outcome is reported through `processJob`. -/
def runWorkerOnce (max_attempts : Int) (st : QueueState) (pullFails : Bool)
    (handlerOk : Job → Bool) (opFails : Nat → Bool) (now : Int) : IterOutcome :=
  if pullFails then
    { state := st, delay := QUEUE_EMPTY_DELAY + QUEUE_INTERVAL }
  else
    let res := pull st max_attempts CONCURRENCY now
    { state := res.2.foldl (processJob handlerOk opFails now) res.1,
      delay := QUEUE_INTERVAL }

/-- A store operation, for reasoning over sequences of API calls. -/
inductive Op where
  | push (msg : Message) (date : Option Int) (now : Int) (job_id : Nat)
  | pull (n : Nat) (now : Int)
  | fail (job_id : Nat) (now : Int)
  | delete (job_id : Nat)

/-- The state transformer of one operation. -/
def applyOp (max_attempts : Int) (st : QueueState) : Op → QueueState
  | Op.push msg date now job_id => (push st msg date now job_id).1
  | Op.pull n now => (pull st max_attempts n now).1
  | Op.fail job_id now => (fail_job st job_id now).1
  | Op.delete job_id => (delete_job st job_id).1

/-- Running a sequence of operations. -/
def applyOps (max_attempts : Int) (st : QueueState) (ops : List Op) :
    QueueState :=
  ops.foldl (applyOp max_attempts) st

/-- Whether an operation is a `push` assigned the id `i`. -/
def pushesId (i : Nat) : Op → Bool
  | Op.push _ _ _ job_id => job_id == i
  | _ => false

/-- Whether an operation is a `delete` of the id `i`. -/
def deletesId (i : Nat) : Op → Bool
  | Op.delete job_id => job_id == i
  | _ => false

/-- A row with id `i` keeps `failed_attempts` at or above `maxA` forever:
nothing the API does lowers the counter. -/
def poisonedAt (i : Nat) (maxA : Int) (st : QueueState) : Prop :=
  ∀ j ∈ st, j.id = i → maxA ≤ j.failed_attempts

/-- A sample queue row used to instantiate witnesses. -/
def sampleRow : PostgresJob :=
  { id := 1, created_at := 0, updated_at := 0, scheduled_for := 0,
    failed_attempts := 0, status := PostgresJobStatus.Queued,
    message := Message.SendVerifyAccountEmail 7 }

/-- A second sample row: same `id` and `message` as `sampleRow` but different
timestamps, `failed_attempts` and `status`. -/
def sampleRowB : PostgresJob :=
  { id := 1, created_at := 3, updated_at := 4, scheduled_for := 9,
    failed_attempts := 2, status := PostgresJobStatus.Running,
    message := Message.SendVerifyAccountEmail 7 }

/-- A row whose retry budget is exhausted (`failed_attempts = max_attempts`). -/
def poisonRow : PostgresJob :=
  { id := 2, created_at := 0, updated_at := 0, scheduled_for := 0,
    failed_attempts := 5, status := PostgresJobStatus.Queued,
    message := Message.SendWelcomeAccountEmail 4 }

/-! ## Supporting lemmas about `pull` -/

theorem mem_of_mem_selectedRows {st : QueueState} {maxA : Int} {n : Nat}
    {now : Int} {j : PostgresJob} (h : j ∈ selectedRows st maxA n now) :
    j ∈ st ∧ eligible maxA now j = true := by
  have h1 : j ∈ List.insertionSort schedLe (st.filter (eligible maxA now)) :=
    (List.take_sublist n _).subset h
  have h2 : j ∈ st.filter (eligible maxA now) :=
    (List.perm_insertionSort schedLe _).subset h1
  exact ⟨(List.mem_filter.1 h2).1, (List.mem_filter.1 h2).2⟩

theorem mem_selectedRows_of {st : QueueState} {maxA : Int} {now : Int}
    {j : PostgresJob} (hj : j ∈ st) (he : eligible maxA now j = true)
    {n : Nat} (hn : (st.filter (eligible maxA now)).length ≤ n) :
    j ∈ selectedRows st maxA n now := by
  have hfilter : j ∈ st.filter (eligible maxA now) := List.mem_filter.2 ⟨hj, he⟩
  have hsortmem : j ∈ List.insertionSort schedLe (st.filter (eligible maxA now)) :=
    (List.perm_insertionSort schedLe _).symm.subset hfilter
  have hlen :
      (List.insertionSort schedLe (st.filter (eligible maxA now))).length ≤ n := by
    rw [(List.perm_insertionSort schedLe _).length_eq]
    exact hn
  unfold selectedRows
  rw [List.take_of_length_le hlen]
  exact hsortmem

theorem selectedRows_sorted (st : QueueState) (maxA : Int) (n : Nat) (now : Int) :
    (selectedRows st maxA n now).Pairwise schedLe :=
  List.Pairwise.sublist (List.take_sublist n _)
    (List.sorted_insertionSort schedLe (st.filter (eligible maxA now)))

theorem pull_snd (st : QueueState) (maxA : Int) (n : Nat) (now : Int) :
    (pull st maxA n now).2 =
      ((selectedRows st maxA n now).map (markRunning now)).map Job.ofPostgres :=
  rfl

theorem markRunning_id (now : Int) (j : PostgresJob) :
    (markRunning now j).id = j.id :=
  rfl

theorem ofPostgres_id (j : PostgresJob) : (Job.ofPostgres j).id = j.id :=
  rfl

theorem pull_returned_ids {st : QueueState} {maxA : Int} {n : Nat} {now : Int}
    {i : Nat} (h : i ∈ (pull st maxA n now).2.map Job.id) :
    ∃ j ∈ st, j.id = i ∧ eligible maxA now j = true := by
  rw [pull_snd] at h
  simp only [List.map_map, List.mem_map, Function.comp] at h
  obtain ⟨j, hj, hid⟩ := h
  obtain ⟨hst, hel⟩ := mem_of_mem_selectedRows hj
  exact ⟨j, hst, hid, hel⟩

theorem pullLocked_snd_ids (st : QueueState) (locked : List Nat) (maxA : Int)
    (n : Nat) (now : Int) :
    (pullLocked st locked maxA n now).2.2.map Job.id =
      ((List.insertionSort schedLe
        ((st.filter (eligible maxA now)).filter
          (fun j => !(locked.contains j.id)))).take n).map (fun j => j.id) := by
  simp only [pullLocked, List.map_map, Function.comp]
  rfl

theorem pullLocked_lockset (st : QueueState) (locked : List Nat) (maxA : Int)
    (n : Nat) (now : Int) :
    (pullLocked st locked maxA n now).2.1 =
      locked ++ (pullLocked st locked maxA n now).2.2.map Job.id := by
  rw [pullLocked_snd_ids]
  rfl

theorem pullLocked_skips_locked {st : QueueState} {locked : List Nat}
    {maxA : Int} {n : Nat} {now : Int} {i : Nat}
    (h : i ∈ (pullLocked st locked maxA n now).2.2.map Job.id) :
    i ∉ locked := by
  rw [pullLocked_snd_ids] at h
  simp only [List.mem_map] at h
  obtain ⟨j, hj, hid⟩ := h
  have h1 : j ∈ List.insertionSort schedLe
      ((st.filter (eligible maxA now)).filter (fun j => !(locked.contains j.id))) :=
    (List.take_sublist n _).subset hj
  have h2 : j ∈ (st.filter (eligible maxA now)).filter
      (fun j => !(locked.contains j.id)) :=
    (List.perm_insertionSort schedLe _).subset h1
  have h3 := (List.mem_filter.1 h2).2
  intro hmem
  rw [← hid] at hmem
  simp only [Bool.not_eq_true'] at h3
  simp [hmem] at h3

theorem pullLocked_fst (st : QueueState) (locked : List Nat) (maxA : Int)
    (n : Nat) (now : Int) :
    (pullLocked st locked maxA n now).1 =
      st.map (fun j =>
        if ((pullLocked st locked maxA n now).2.2.map Job.id).contains j.id
        then markRunning now j else j) := by
  rw [pullLocked_snd_ids]
  rfl

end JobsRs

namespace JobsRs

/-- C1: two invocations of `pull` against the same store state return disjoint
job-id sets: rows locked and transitioned to `Running` by the first caller's
in-flight transaction are skipped (`FOR UPDATE SKIP LOCKED`) by the second
caller rather than returned; likewise after the first transaction commits,
the rows it leased are `Running` and fail the selection predicate. -/
theorem pull_no_double_lease (st : QueueState) (maxA : Int)
    (n1 n2 : Nat) (now1 now2 : Int) :
    (∀ i, i ∈ (pullLocked st ((pullLocked st [] maxA n1 now1).2.1) maxA n2
        now2).2.2.map Job.id →
      i ∉ (pullLocked st [] maxA n1 now1).2.2.map Job.id)
  ∧ (∀ i, i ∈ (pull ((pullLocked st [] maxA n1 now1).1) maxA n2
        now2).2.map Job.id →
      i ∉ (pullLocked st [] maxA n1 now1).2.2.map Job.id) := by
  constructor
  · intro i hi
    have hskip := pullLocked_skips_locked hi
    rw [pullLocked_lockset] at hskip
    simp only [List.nil_append] at hskip
    exact hskip
  · intro i hi
    obtain ⟨j', hj'mem, hj'id, hj'el⟩ := pull_returned_ids hi
    rw [pullLocked_fst] at hj'mem
    obtain ⟨j, hjmem, hfj⟩ := List.mem_map.1 hj'mem
    by_cases hc :
        ((pullLocked st [] maxA n1 now1).2.2.map Job.id).contains j.id = true
    · rw [if_pos hc] at hfj
      rw [← hfj] at hj'el
      simp [eligible, markRunning] at hj'el
    · rw [if_neg hc] at hfj
      subst hfj
      intro habs
      apply hc
      rw [hj'id]
      simp [habs]

end JobsRs

namespace JobsRs

theorem pull_fst (st : QueueState) (maxA : Int) (n : Nat) (now : Int) :
    (pull st maxA n now).1 =
      st.map (fun j =>
        if ((selectedRows st maxA n now).map (fun x => x.id)).contains j.id
        then markRunning now j else j) :=
  rfl

/-- C2: for a positive limit, `pull` returns at most `limit` jobs; the batch
is the eligible rows (`status = Queued`, `scheduled_for <= now`,
`failed_attempts < max_attempts` at selection time) sorted by ascending
`scheduled_for` and truncated to the limit; and each selected row is
transitioned to `Running` with `updated_at = now` in the resulting store. -/
theorem pull_functional_spec (st : QueueState) (maxA : Int) (n : Nat)
    (now : Int) (hn : 0 < n) :
    (pull st maxA n now).2.length ≤ n
  ∧ (pull st maxA n now).2 =
      ((selectedRows st maxA n now).map (markRunning now)).map Job.ofPostgres
  ∧ (∀ jb ∈ (pull st maxA n now).2, ∃ j ∈ st,
      eligible maxA now j = true ∧ jb = Job.ofPostgres (markRunning now j))
  ∧ (selectedRows st maxA n now).Pairwise schedLe
  ∧ (∀ j ∈ selectedRows st maxA n now,
      markRunning now j ∈ (pull st maxA n now).1
      ∧ (markRunning now j).status = PostgresJobStatus.Running
      ∧ (markRunning now j).updated_at = now) := by
  refine ⟨?_, pull_snd st maxA n now, ?_, selectedRows_sorted st maxA n now, ?_⟩
  · rw [pull_snd]
    simp only [List.length_map, selectedRows, List.length_take]
    exact Nat.min_le_left _ _
  · intro jb hjb
    rw [pull_snd] at hjb
    simp only [List.map_map, List.mem_map, Function.comp] at hjb
    obtain ⟨j, hj, hjb'⟩ := hjb
    obtain ⟨hst, hel⟩ := mem_of_mem_selectedRows hj
    exact ⟨j, hst, hel, hjb'.symm⟩
  · intro j hj
    refine ⟨?_, rfl, rfl⟩
    rw [pull_fst]
    refine List.mem_map.2 ⟨j, (mem_of_mem_selectedRows hj).1, ?_⟩
    rw [if_pos]
    have : j.id ∈ (selectedRows st maxA n now).map (fun x => x.id) :=
      List.mem_map.2 ⟨j, hj, rfl⟩
    simp [this]

/-- Witness for C2 at a concrete one-row store and limit 1. -/
theorem pull_functional_spec_witness :
    0 < 1 ∧ (pull [sampleRow] 5 1 0).2.length ≤ 1 :=
  ⟨by decide, (pull_functional_spec [sampleRow] 5 1 0 (by decide)).1⟩

/-- C3: a job pushed with a future `scheduled_for = t` is never returned by a
`pull` whose clock reads strictly before `t`; a `pull` at or after `t` whose
limit covers every eligible row returns it (fresh id, positive retry budget). -/
theorem push_scheduling_respected (st : QueueState) (msg : Message) (t : Int)
    (now0 : Int) (i : Nat) (maxA : Int) (n : Nat)
    (hfresh : ∀ j ∈ st, j.id ≠ i) (hmax : 0 < maxA) :
    (∀ now1 : Int, now1 < t → ∀ m : Nat,
      i ∉ (pull ((push st msg (some t) now0 i).1) maxA m now1).2.map Job.id)
  ∧ (∀ now2 : Int, t ≤ now2 →
      (((push st msg (some t) now0 i).1).filter (eligible maxA now2)).length ≤ n →
      i ∈ (pull ((push st msg (some t) now0 i).1) maxA n now2).2.map Job.id) := by
  have hpush : (push st msg (some t) now0 i).1 =
      st ++ [pushedRow msg (some t) now0 i] := rfl
  constructor
  · intro now1 hlt m habs
    obtain ⟨j, hjmem, hjid, hjel⟩ := pull_returned_ids habs
    rw [hpush, List.mem_append] at hjmem
    rcases hjmem with hjst | hjnew
    · exact hfresh j hjst hjid
    · rw [List.mem_singleton] at hjnew
      subst hjnew
      simp [eligible, pushedRow] at hjel
      omega
  · intro now2 hle hcount
    have hnewmem : pushedRow msg (some t) now0 i ∈ (push st msg (some t) now0 i).1 := by
      rw [hpush, List.mem_append, List.mem_singleton]
      exact Or.inr rfl
    have hel : eligible maxA now2 (pushedRow msg (some t) now0 i) = true := by
      simp [eligible, pushedRow]
      omega
    have hsel := mem_selectedRows_of hnewmem hel hcount
    rw [pull_snd]
    simp only [List.map_map, List.mem_map, Function.comp]
    exact ⟨_, hsel, rfl⟩

/-- Witness for C3: push at time 0 scheduled for time 10 into an empty store;
a pull at time 5 does not return the job. -/
theorem push_scheduling_respected_witness :
    (∀ j ∈ ([] : QueueState), j.id ≠ 3) ∧ (0:Int) < 5 ∧
    3 ∉ (pull ((push [] (Message.SendWelcomeAccountEmail 1)
        (some 10) 0 3).1) 5 4 5).2.map Job.id := by
  refine ⟨by simp, by decide, ?_⟩
  exact (push_scheduling_respected [] (Message.SendWelcomeAccountEmail 1) 10 0 3
    5 4 (by simp) (by decide)).1 5 (by decide) 4

/-- C4: `fail_job` requeues the row carrying the given id with `status =
Queued`, `updated_at = now` and `failed_attempts` incremented by exactly one,
leaving its `id`, `created_at`, `scheduled_for` and `message` unchanged and
every other row untouched; the requeued row passes the `pull` selection
predicate as soon as its schedule is due and its retry budget allows, with no
backoff applied to `scheduled_for`. -/
theorem fail_job_spec (st : QueueState) (i : Nat) (now : Int) (maxA : Int)
    (j : PostgresJob) (hj : j ∈ st) (hid : j.id = i) :
    failUpdate now j ∈ (fail_job st i now).1
  ∧ (failUpdate now j).status = PostgresJobStatus.Queued
  ∧ (failUpdate now j).updated_at = now
  ∧ (failUpdate now j).failed_attempts = j.failed_attempts + 1
  ∧ (failUpdate now j).scheduled_for = j.scheduled_for
  ∧ (failUpdate now j).id = j.id
  ∧ (failUpdate now j).created_at = j.created_at
  ∧ (failUpdate now j).message = j.message
  ∧ (∀ k ∈ st, k.id ≠ i → k ∈ (fail_job st i now).1)
  ∧ (∀ fut : Int, j.scheduled_for ≤ fut → j.failed_attempts + 1 < maxA →
      eligible maxA fut (failUpdate now j) = true) := by
  refine ⟨?_, rfl, rfl, rfl, rfl, rfl, rfl, rfl, ?_, ?_⟩
  · refine List.mem_map.2 ⟨j, hj, ?_⟩
    simp [hid]
  · intro k hk hkid
    refine List.mem_map.2 ⟨k, hk, ?_⟩
    simp [hkid]
  · intro fut hsched hatt
    simp only [eligible, failUpdate]
    simp
    omega

/-- Witness for C4 at a one-row store. -/
theorem fail_job_spec_witness :
    sampleRow ∈ [sampleRow] ∧ sampleRow.id = 1 ∧
    failUpdate 2 sampleRow ∈ (fail_job [sampleRow] 1 2).1 :=
  ⟨by simp, rfl, (fail_job_spec [sampleRow] 1 2 5 sampleRow (by simp) rfl).1⟩

/-- A row transformer that preserves ids maps a state without the id `i` to a
state without it. -/
theorem map_preserves_absent {st : QueueState} {f : PostgresJob → PostgresJob}
    (hf : ∀ x, (f x).id = x.id) {i : Nat} (h : ∀ j ∈ st, j.id ≠ i) :
    ∀ j ∈ st.map f, j.id ≠ i := by
  intro j hj
  obtain ⟨x, hx, rfl⟩ := List.mem_map.1 hj
  rw [hf]
  exact h x hx

theorem pullRow_id (ids : List Nat) (now : Int) (x : PostgresJob) :
    (if ids.contains x.id then markRunning now x else x).id = x.id := by
  split <;> rfl

theorem failRow_id (i : Nat) (now : Int) (x : PostgresJob) :
    (if x.id == i then failUpdate now x else x).id = x.id := by
  split <;> rfl

/-- No operation other than a `push` assigned the id `i` can introduce a row
with id `i`. -/
theorem applyOp_preserves_absent {maxA : Int} {st : QueueState} {i : Nat}
    (h : ∀ j ∈ st, j.id ≠ i) {op : Op} (hop : pushesId i op = false) :
    ∀ j ∈ applyOp maxA st op, j.id ≠ i := by
  cases op with
  | push msg date now job_id =>
      intro j hj
      simp only [applyOp, push, List.mem_append, List.mem_singleton] at hj
      rcases hj with hj | hj
      · exact h j hj
      · subst hj
        simp only [pushesId, beq_eq_false_iff_ne, ne_eq] at hop
        exact hop
  | pull n now =>
      exact map_preserves_absent (pullRow_id _ now) h
  | fail job_id now =>
      exact map_preserves_absent (failRow_id job_id now) h
  | delete job_id =>
      intro j hj
      exact h j (List.mem_filter.1 hj).1

theorem applyOps_preserves_absent {maxA : Int} {i : Nat} {ops : List Op}
    {st : QueueState} (h : ∀ j ∈ st, j.id ≠ i)
    (hops : ∀ op ∈ ops, pushesId i op = false) :
    ∀ j ∈ applyOps maxA st ops, j.id ≠ i := by
  induction ops generalizing st with
  | nil => exact h
  | cons op rest ih =>
      exact ih (applyOp_preserves_absent h (hops op (List.mem_cons_self op rest)))
        (fun op' h' => hops op' (List.mem_cons_of_mem op h'))

/-- `pull` only ever returns ids of rows present in the store. -/
theorem pull_not_returned_of_absent {st : QueueState} {maxA : Int} {n : Nat}
    {now : Int} {i : Nat} (h : ∀ j ∈ st, j.id ≠ i) :
    i ∉ (pull st maxA n now).2.map Job.id := by
  intro habs
  obtain ⟨j, hj, hjid, _⟩ := pull_returned_ids habs
  exact h j hj hjid

/-- C5: `delete_job` removes every row with the id, is idempotent, succeeds
as a no-op on a non-existent id, and is terminal: along any later operation
sequence that never pushes the id again, no `pull` returns it. -/
theorem delete_job_terminal (st : QueueState) (i : Nat) (maxA : Int)
    (ops : List Op) (hops : ∀ op ∈ ops, pushesId i op = false) :
    (delete_job (delete_job st i).1 i).1 = (delete_job st i).1
  ∧ ((∀ j ∈ st, j.id ≠ i) → (delete_job st i).1 = st)
  ∧ (∀ j ∈ (delete_job st i).1, j.id ≠ i)
  ∧ (∀ n now,
      i ∉ (pull (applyOps maxA (delete_job st i).1 ops) maxA n now).2.map
        Job.id) := by
  have habsent : ∀ j ∈ (delete_job st i).1, j.id ≠ i := by
    intro j hj
    have := (List.mem_filter.1 hj).2
    simpa using this
  refine ⟨?_, ?_, habsent, ?_⟩
  · exact List.filter_eq_self.2 (fun a ha => (List.mem_filter.1 ha).2)
  · intro h
    exact List.filter_eq_self.2 (fun a ha => by simpa using h a ha)
  · intro n now
    exact pull_not_returned_of_absent
      (applyOps_preserves_absent habsent hops)

/-- Witness for C5: delete the only row, then push an unrelated job; a pull
afterwards does not return the deleted id. -/
theorem delete_job_terminal_witness :
    (∀ op ∈ [Op.push (Message.SendVerifyAccountEmail 7) none 0 2],
      pushesId 1 op = false) ∧
    1 ∉ (pull (applyOps 5 (delete_job [sampleRow] 1).1
      [Op.push (Message.SendVerifyAccountEmail 7) none 0 2]) 5 3 0).2.map
        Job.id := by
  have hops : ∀ op ∈ [Op.push (Message.SendVerifyAccountEmail 7) none 0 2],
      pushesId 1 op = false := by
    intro op hop
    rw [List.mem_singleton] at hop
    subst hop
    rfl
  exact ⟨hops, (delete_job_terminal [sampleRow] 1 5
    [Op.push (Message.SendVerifyAccountEmail 7) none 0 2] hops).2.2.2 3 0⟩

theorem applyOp_preserves_poisoned {maxA : Int} {st : QueueState} {i : Nat}
    (h : poisonedAt i maxA st) {op : Op} (hop : pushesId i op = false) :
    poisonedAt i maxA (applyOp maxA st op) := by
  cases op with
  | push msg date now job_id =>
      intro j hj hjid
      simp only [applyOp, push, List.mem_append, List.mem_singleton] at hj
      rcases hj with hj | hj
      · exact h j hj hjid
      · subst hj
        simp only [pushesId, beq_eq_false_iff_ne, ne_eq] at hop
        exact absurd hjid hop
  | pull n now =>
      intro j hj hjid
      obtain ⟨x, hx, rfl⟩ := List.mem_map.1 hj
      rw [pullRow_id] at hjid
      have hx' := h x hx hjid
      split <;> exact hx'
  | fail job_id now =>
      intro j hj hjid
      obtain ⟨x, hx, rfl⟩ := List.mem_map.1 hj
      rw [failRow_id] at hjid
      have hx' := h x hx hjid
      split
      · simp only [failUpdate]
        omega
      · exact hx'
  | delete job_id =>
      intro j hj hjid
      exact h j (List.mem_filter.1 hj).1 hjid

theorem applyOps_preserves_poisoned {maxA : Int} {i : Nat} {ops : List Op}
    {st : QueueState} (h : poisonedAt i maxA st)
    (hops : ∀ op ∈ ops, pushesId i op = false) :
    poisonedAt i maxA (applyOps maxA st ops) := by
  induction ops generalizing st with
  | nil => exact h
  | cons op rest ih =>
      exact ih (applyOp_preserves_poisoned h (hops op (List.mem_cons_self op rest)))
        (fun op' h' => hops op' (List.mem_cons_of_mem op h'))

theorem applyOp_preserves_exists {maxA : Int} {st : QueueState} {i : Nat}
    (h : ∃ j ∈ st, j.id = i) {op : Op} (hdel : deletesId i op = false) :
    ∃ j ∈ applyOp maxA st op, j.id = i := by
  obtain ⟨j, hj, hjid⟩ := h
  cases op with
  | push msg date now job_id =>
      exact ⟨j, List.mem_append.2 (Or.inl hj), hjid⟩
  | pull n now =>
      refine ⟨_, List.mem_map.2 ⟨j, hj, rfl⟩, ?_⟩
      rw [pullRow_id]
      exact hjid
  | fail job_id now =>
      refine ⟨_, List.mem_map.2 ⟨j, hj, rfl⟩, ?_⟩
      rw [failRow_id]
      exact hjid
  | delete job_id =>
      simp only [deletesId, beq_eq_false_iff_ne, ne_eq] at hdel
      refine ⟨j, List.mem_filter.2 ⟨hj, ?_⟩, hjid⟩
      subst hjid
      simp only [bne_iff_ne, ne_eq]
      exact fun hh => hdel hh.symm

theorem applyOps_preserves_exists {maxA : Int} {i : Nat} {ops : List Op}
    {st : QueueState} (h : ∃ j ∈ st, j.id = i)
    (hdels : ∀ op ∈ ops, deletesId i op = false) :
    ∃ j ∈ applyOps maxA st ops, j.id = i := by
  induction ops generalizing st with
  | nil => exact h
  | cons op rest ih =>
      exact ih (applyOp_preserves_exists h (hdels op (List.mem_cons_self op rest)))
        (fun op' h' => hdels op' (List.mem_cons_of_mem op h'))

/-- C6: once a job's `failed_attempts` has reached `max_attempts`, no `pull`
along any sequence of operations that does not push the id again ever returns
it; and if the sequence also never deletes the id, its row still exists in
the store. -/
theorem poison_exclusion (maxA : Int) (st : QueueState) (i : Nat)
    (ops : List Op) (hpois : poisonedAt i maxA st)
    (hops : ∀ op ∈ ops, pushesId i op = false) :
    (∀ n now, i ∉ (pull (applyOps maxA st ops) maxA n now).2.map Job.id)
  ∧ ((∀ op ∈ ops, deletesId i op = false) → (∃ j ∈ st, j.id = i) →
      ∃ j ∈ applyOps maxA st ops, j.id = i) := by
  constructor
  · intro n now habs
    obtain ⟨j, hj, hjid, hjel⟩ := pull_returned_ids habs
    have hp := applyOps_preserves_poisoned hpois hops j hj hjid
    simp only [eligible, Bool.and_eq_true, decide_eq_true_eq] at hjel
    omega
  · intro hdels hex
    exact applyOps_preserves_exists hex hdels

/-- Witness for C6: a row with `failed_attempts = max_attempts = 5` is not
returned by a pull after an empty operation sequence. -/
theorem poison_exclusion_witness :
    poisonedAt 2 5 [poisonRow] ∧
    2 ∉ (pull (applyOps 5 [poisonRow] []) 5 10 0).2.map Job.id := by
  have hpois : poisonedAt 2 5 [poisonRow] := by
    intro j hj _
    rw [List.mem_singleton] at hj
    subst hj
    decide
  exact ⟨hpois, (poison_exclusion 5 [poisonRow] 2 [] hpois
    (fun op hop => absurd hop (List.not_mem_nil op))).1 10 0⟩

/-- C7 counterexample: `push` cannot be returning the freshly assigned job id,
because its success value is the unit value `()` whatever the id is — no
function can recover the id from it. -/
theorem push_return_value_carries_no_id :
    ¬ ∃ f : Unit → Nat, ∀ job_id : Nat,
      f (push [] (Message.SendVerifyAccountEmail 0) none 0 job_id).2 =
        job_id := by
  rintro ⟨f, hf⟩
  have h0 := hf 0
  have h1 := hf 1
  rw [show (push [] (Message.SendVerifyAccountEmail 0) none 0 0).2 = ()
    from rfl] at h0
  rw [show (push [] (Message.SendVerifyAccountEmail 0) none 0 1).2 = ()
    from rfl] at h1
  omega

/-- C7 amended: a successful `push` returns the unit value, independent of the
freshly assigned job id; the id is recorded only in the inserted row. -/
theorem push_returns_unit (st : QueueState) (msg : Message) (date : Option Int)
    (now : Int) (job_id : Nat) :
    (push st msg date now job_id).2 = ()
  ∧ (∀ job_id2 : Nat,
      (push st msg date now job_id).2 = (push st msg date now job_id2).2)
  ∧ (pushedRow msg date now job_id).id = job_id :=
  ⟨rfl, fun _ => rfl, rfl⟩

/-- C8: a successful `push` appends exactly one new row, carrying the fresh
id, `status = Queued`, `failed_attempts = 0`,
`scheduled_for = date.unwrap_or(now)` and `created_at = updated_at = now`;
the fresh id identifies the new row uniquely; and pushing the same message a
second time (under a second fresh id) yields two independent rows with the
same message and distinct ids — no deduplication. -/
theorem push_inserts_one_row (st : QueueState) (msg : Message)
    (date : Option Int) (now : Int) (job_id : Nat)
    (hfresh : ∀ j ∈ st, j.id ≠ job_id) :
    (push st msg date now job_id).1 = st ++ [pushedRow msg date now job_id]
  ∧ (push st msg date now job_id).1.length = st.length + 1
  ∧ (pushedRow msg date now job_id).id = job_id
  ∧ (pushedRow msg date now job_id).status = PostgresJobStatus.Queued
  ∧ (pushedRow msg date now job_id).failed_attempts = 0
  ∧ (pushedRow msg date now job_id).scheduled_for = date.getD now
  ∧ (pushedRow msg date now job_id).created_at = now
  ∧ (pushedRow msg date now job_id).updated_at = now
  ∧ (pushedRow msg date now job_id).message = msg
  ∧ (∀ j ∈ (push st msg date now job_id).1,
      j.id = job_id → j = pushedRow msg date now job_id)
  ∧ (∀ job_id2 : Nat, job_id2 ≠ job_id →
      pushedRow msg date now job_id ∈
        (push ((push st msg date now job_id).1) msg date now job_id2).1
      ∧ pushedRow msg date now job_id2 ∈
        (push ((push st msg date now job_id).1) msg date now job_id2).1
      ∧ (pushedRow msg date now job_id).id ≠ (pushedRow msg date now job_id2).id
      ∧ (pushedRow msg date now job_id).message = msg
      ∧ (pushedRow msg date now job_id2).message = msg) := by
  refine ⟨rfl, by simp [push], rfl, rfl, rfl, rfl, rfl, rfl, rfl, ?_, ?_⟩
  · intro j hj hjid
    simp only [push, List.mem_append, List.mem_singleton] at hj
    rcases hj with hj | hj
    · exact absurd hjid (hfresh j hj)
    · exact hj
  · intro job_id2 hne
    refine ⟨?_, ?_, ?_, rfl, rfl⟩
    · simp [push]
    · simp [push]
    · simpa [pushedRow] using fun hh => hne hh.symm

/-- Witness for C8: push into the empty store (any id is fresh there). -/
theorem push_inserts_one_row_witness :
    (∀ j ∈ ([] : QueueState), j.id ≠ 1) ∧
    (push [] (Message.SendVerifyAccountEmail 7) none 0 1).1.length =
      ([] : QueueState).length + 1 :=
  ⟨by simp, (push_inserts_one_row [] (Message.SendVerifyAccountEmail 7)
    none 0 1 (by simp)).2.1⟩

/-! ## Worker loop lemmas (C9) -/

theorem rowsWithId_delete_self (st : QueueState) (i : Nat) :
    rowsWithId (delete_job st i).1 i = [] := by
  simp only [rowsWithId, delete_job, List.filter_filter]
  apply List.filter_eq_nil_iff.mpr
  intro a _
  simp

theorem rowsWithId_delete_other {st : QueueState} {i k : Nat} (hne : k ≠ i) :
    rowsWithId (delete_job st k).1 i = rowsWithId st i := by
  simp only [rowsWithId, delete_job, List.filter_filter]
  apply List.filter_congr
  intro a _
  by_cases h : a.id = i
  · simp [h, Ne.symm hne]
  · simp [h]

theorem rowsWithId_fail_self (st : QueueState) (i : Nat) (now : Int) :
    rowsWithId (fail_job st i now).1 i =
      (rowsWithId st i).map (failUpdate now) := by
  simp only [rowsWithId, fail_job, List.filter_map]
  have hpred : ∀ a ∈ st,
      (((fun j => j.id == i) ∘
        (fun j => if j.id == i then failUpdate now j else j)) a)
        = (a.id == i) := by
    intro a _
    by_cases h : a.id = i
    · simp [Function.comp, h, failUpdate]
    · simp [Function.comp, h]
  rw [List.filter_congr hpred]
  apply List.map_congr_left
  intro a ha
  have h := (List.mem_filter.1 ha).2
  simp only [beq_iff_eq] at h
  simp [h]

theorem rowsWithId_fail_other {st : QueueState} {i k : Nat} (hne : k ≠ i)
    (now : Int) :
    rowsWithId (fail_job st k now).1 i = rowsWithId st i := by
  simp only [rowsWithId, fail_job, List.filter_map]
  have hpred : ∀ a ∈ st,
      (((fun j => j.id == i) ∘
        (fun j => if j.id == k then failUpdate now j else j)) a)
        = (a.id == i) := by
    intro a _
    by_cases h : a.id = k
    · simp [Function.comp, h, failUpdate]
    · simp [Function.comp, h]
  rw [List.filter_congr hpred]
  have hid : ∀ a ∈ st.filter (fun j => j.id == i),
      (fun j => if j.id == k then failUpdate now j else j) a = a := by
    intro a ha
    have h := (List.mem_filter.1 ha).2
    simp only [beq_iff_eq] at h
    have hak : a.id ≠ k := by rw [h]; exact Ne.symm hne
    simp [hak]
  rw [List.map_congr_left hid]
  simp

theorem processJob_rowsWithId_other {hOk : Job → Bool} {oF : Nat → Bool}
    {now : Int} {st : QueueState} {jb : Job} {i : Nat} (hne : jb.id ≠ i) :
    rowsWithId (processJob hOk oF now st jb) i = rowsWithId st i := by
  unfold processJob
  split
  · rfl
  · split
    · exact rowsWithId_delete_other hne
    · exact rowsWithId_fail_other hne now

theorem foldProcess_rowsWithId_other {hOk : Job → Bool} {oF : Nat → Bool}
    {now : Int} {i : Nat} {jobs : List Job}
    (hjobs : ∀ jb ∈ jobs, jb.id ≠ i) (st : QueueState) :
    rowsWithId (jobs.foldl (processJob hOk oF now) st) i = rowsWithId st i := by
  induction jobs generalizing st with
  | nil => rfl
  | cons jb rest ih =>
      rw [List.foldl_cons,
        ih (fun x hx => hjobs x (List.mem_cons_of_mem jb hx))]
      exact processJob_rowsWithId_other (hjobs jb (List.mem_cons_self jb rest))

/-- Processing a batch with pairwise distinct job ids: each job whose
outcome call does not error is settled by its own handler outcome, with
delete on success and fail on failure, independently of its siblings. -/
theorem batch_outcome {hOk : Job → Bool} {oF : Nat → Bool} {now : Int}
    {jobs : List Job} (hnodup : (jobs.map Job.id).Nodup)
    (st : QueueState) {jb : Job} (hjb : jb ∈ jobs) (hop : oF jb.id = false) :
    (hOk jb = true →
      rowsWithId (jobs.foldl (processJob hOk oF now) st) jb.id = [])
  ∧ (hOk jb = false →
      rowsWithId (jobs.foldl (processJob hOk oF now) st) jb.id =
        (rowsWithId st jb.id).map (failUpdate now)) := by
  obtain ⟨l1, l2, rfl⟩ := List.append_of_mem hjb
  have hmap := hnodup
  rw [List.map_append, List.map_cons] at hmap
  have h1 : ∀ x ∈ l1, x.id ≠ jb.id := by
    intro x hx heq
    have hmem : jb.id ∈ l1.map Job.id := heq ▸ List.mem_map_of_mem Job.id hx
    exact (List.nodup_append.1 hmap).2.2 hmem (List.mem_cons_self _ _)
  have h2 : ∀ x ∈ l2, x.id ≠ jb.id := by
    intro x hx heq
    have hn := (List.nodup_append.1 hmap).2.1
    rw [List.nodup_cons] at hn
    exact hn.1 (heq ▸ List.mem_map_of_mem Job.id hx)
  rw [List.foldl_append, List.foldl_cons]
  have hl1 : rowsWithId (l1.foldl (processJob hOk oF now) st) jb.id =
      rowsWithId st jb.id := foldProcess_rowsWithId_other h1 st
  constructor
  · intro hok
    rw [foldProcess_rowsWithId_other h2]
    simp only [processJob, hop, hok, Bool.false_eq_true, if_false, if_true]
    exact rowsWithId_delete_self _ _
  · intro hnok
    rw [foldProcess_rowsWithId_other h2]
    simp only [processJob, hop, hnok, Bool.false_eq_true, if_false]
    rw [rowsWithId_fail_self, hl1]

theorem pull_snd_ids (st : QueueState) (maxA : Int) (n : Nat) (now : Int) :
    (pull st maxA n now).2.map Job.id =
      (selectedRows st maxA n now).map (fun j => j.id) := by
  rw [pull_snd]
  simp only [List.map_map]
  rfl

theorem selectedRows_ids_nodup {st : QueueState} (h : (idsOf st).Nodup)
    (maxA : Int) (n : Nat) (now : Int) :
    ((selectedRows st maxA n now).map (fun j => j.id)).Nodup := by
  have hfil : ((st.filter (eligible maxA now)).map (fun j => j.id)).Nodup :=
    List.Nodup.sublist (List.Sublist.map _ (List.filter_sublist st)) h
  have hsort : ((List.insertionSort schedLe
      (st.filter (eligible maxA now))).map (fun j => j.id)).Nodup :=
    (List.Perm.nodup_iff
      (List.Perm.map _ (List.perm_insertionSort schedLe _))).mpr hfil
  exact List.Nodup.sublist (List.Sublist.map _ (List.take_sublist n _)) hsort

/-- C9: one pass of `run_worker`'s loop.  A `pull` error is treated as an
empty batch: the store is untouched and the loop waits the fixed empty delay
before its end-of-iteration interval and continues.  Otherwise each pulled
job whose outcome call does not itself error is reported via `delete_job` on
handler success (its row is gone from the final state) and via `fail_job` on
handler failure (its rows are exactly the requeued, attempt-incremented
versions of its leased rows), regardless of the handler outcomes or
outcome-call errors of sibling jobs in the batch. -/
theorem run_worker_iteration (maxA : Int) (st : QueueState)
    (hOk : Job → Bool) (oF : Nat → Bool) (now : Int)
    (hnodup : (idsOf st).Nodup) :
    runWorkerOnce maxA st true hOk oF now =
      { state := st, delay := QUEUE_EMPTY_DELAY + QUEUE_INTERVAL }
  ∧ (runWorkerOnce maxA st false hOk oF now).delay = QUEUE_INTERVAL
  ∧ (∀ jb ∈ (pull st maxA CONCURRENCY now).2, oF jb.id = false →
      (hOk jb = true →
        rowsWithId (runWorkerOnce maxA st false hOk oF now).state jb.id = [])
      ∧ (hOk jb = false →
        rowsWithId (runWorkerOnce maxA st false hOk oF now).state jb.id =
          (rowsWithId (pull st maxA CONCURRENCY now).1 jb.id).map
            (failUpdate now))) := by
  refine ⟨rfl, rfl, ?_⟩
  intro jb hjb hop
  have hids : ((pull st maxA CONCURRENCY now).2.map Job.id).Nodup := by
    rw [pull_snd_ids]
    exact selectedRows_ids_nodup hnodup maxA CONCURRENCY now
  exact batch_outcome hids ((pull st maxA CONCURRENCY now).1) hjb hop

/-- Witness for C9: the failing-pull pass on a one-row store leaves the store
as is and waits the empty delay. -/
theorem run_worker_iteration_witness :
    (idsOf [sampleRow]).Nodup ∧
    runWorkerOnce 5 [sampleRow] true (fun _ => true) (fun _ => false) 0 =
      { state := [sampleRow], delay := QUEUE_EMPTY_DELAY + QUEUE_INTERVAL } :=
  ⟨by simp [idsOf], (run_worker_iteration 5 [sampleRow] (fun _ => true)
    (fun _ => false) 0 (by simp [idsOf])).1⟩

/-- C10: the public `Job` value exposes exactly `id` and `message`: the
row-to-Job mapping discards `created_at`, `updated_at`, `scheduled_for`,
`failed_attempts` and `status`, so rows differing only in those fields are
indistinguishable through the values `pull` returns — in particular a status
flip or an attempt increment is invisible, and every value `pull` returns is
such a two-field projection of a stored row. -/
theorem job_projection (p q : PostgresJob) (hid : p.id = q.id)
    (hmsg : p.message = q.message) :
    Job.ofPostgres p = Job.ofPostgres q
  ∧ (Job.ofPostgres p).id = p.id
  ∧ (Job.ofPostgres p).message = p.message
  ∧ (∀ now, Job.ofPostgres (markRunning now p) = Job.ofPostgres p)
  ∧ (∀ now, Job.ofPostgres (failUpdate now p) = Job.ofPostgres p)
  ∧ (∀ st maxA n now, ∀ jb ∈ (pull st maxA n now).2, ∃ r ∈ st,
      jb = Job.ofPostgres (markRunning now r)
      ∧ jb.id = r.id ∧ jb.message = r.message) := by
  refine ⟨?_, rfl, rfl, fun _ => rfl, fun _ => rfl, ?_⟩
  · simp [Job.ofPostgres, hid, hmsg]
  · intro st maxA n now jb hjb
    rw [pull_snd] at hjb
    simp only [List.map_map, List.mem_map, Function.comp] at hjb
    obtain ⟨r, hr, hjb'⟩ := hjb
    exact ⟨r, (mem_of_mem_selectedRows hr).1, hjb'.symm,
      by rw [← hjb']; rfl, by rw [← hjb']; rfl⟩

/-- Witness for C10: two rows equal in `id` and `message` but different in
every dropped field map to the same public `Job`. -/
theorem job_projection_witness :
    sampleRow.id = sampleRowB.id ∧ sampleRow.message = sampleRowB.message ∧
    Job.ofPostgres sampleRow = Job.ofPostgres sampleRowB :=
  ⟨rfl, rfl, (job_projection sampleRow sampleRowB rfl rfl).1⟩

end JobsRs
